import Mathlib

/-!
Verification development for the RAG pipeline of `rag_pipeline.py`
(`chunk_text`, the id/upsert phase of `process_pdf`, and the pure
formatting part of `retrieve_context`).  Python strings are modelled as
`List Char` and Python `int` as `Int` wherever a value can go negative.
The chunking `while` loop is modelled with explicit fuel: a result of
`none` means the loop has not finished within the given number of
iterations (so `(∀ fuel, … = none)` states divergence).
-/

/-- Python slice-index resolution: the effective index of `i` into a
string of length `len` (negative indices count from the end; everything
clamps into `[0, len]`). -/
def pyClamp (len : Nat) (i : Int) : Nat :=
  if i < 0 then (i + len).toNat else min i.toNat len

/-- Python string slice `s[i:j]`. -/
def pySlice (s : List Char) (i j : Int) : List Char :=
  (s.take (pyClamp s.length j)).drop (pyClamp s.length i)

/-- Python whitespace (the ASCII subset relevant to this program), as
stripped by `str.strip()`. -/
def isPySpace (c : Char) : Bool :=
  c = ' ' || c = '\t' || c = '\n' || c = '\r' || c = '\x0B' || c = '\x0C'

/-- Python `str.strip()`: drop leading and trailing whitespace. -/
def pyStrip (s : List Char) : List Char :=
  ((s.dropWhile isPySpace).reverse.dropWhile isPySpace).reverse

/-- Collapse every maximal run of the character `c` of length `n` down to
`min n lim` copies; `cnt` is the length of the run read so far.  With
`lim = 2` this is `re.sub(r'\n{3,}', '\n\n', ·)` for `c = '\n'`, and with
`lim = 1` it is `re.sub(r' {2,}', ' ', ·)` for `c = ' '`. -/
def collapseRun (c : Char) (lim : Nat) : Nat → List Char → List Char
  | cnt, [] => List.replicate (min cnt lim) c
  | cnt, x :: xs =>
    if x = c then collapseRun c lim (cnt + 1) xs
    else List.replicate (min cnt lim) c ++ x :: collapseRun c lim 0 xs

/-- The whitespace normalization of `chunk_text` (lines 65-66 of
`rag_pipeline.py`): squeeze 3+ newlines to 2, then 2+ spaces to 1. -/
def normalizeText (t : List Char) : List Char :=
  collapseRun ' ' 1 0 (collapseRun '\n' 2 0 t)

/-- Does the two-character pattern `'. '` occur in `s` at position `k`? -/
def dotSpaceAt (s : List Char) (k : Nat) : Bool :=
  s[k]? == some '.' && s[k + 1]? == some ' '

/-- Scan positions `k-1, k-2, …, 0` of `s` for an occurrence of `'. '`,
returning the first (hence overall largest) hit, or `-1`. -/
def rfindAux (s : List Char) : Nat → Int
  | 0 => -1
  | k + 1 => if dotSpaceAt s k then (k : Int) else rfindAux s k

/-- Python `chunk.rfind('. ')` (line 75): index of the last occurrence of
`'. '` in `chunk`, or `-1` when there is none. -/
def rfindDotSpace (s : List Char) : Int :=
  rfindAux s s.length

/-- The window `text[start : start + chunk_size]` taken at offset `start`
(lines 71-72). -/
def window (text : List Char) (chunk_size : Nat) (start : Int) : List Char :=
  pySlice text start (start + chunk_size)

/-- The chunk selected from one window (lines 72-77): the window itself,
truncated just after the last `'. '` when that occurrence lies strictly
past `chunk_size // 2`. -/
def selectChunk (text : List Char) (chunk_size : Nat) (start : Int) : List Char :=
  if ((chunk_size / 2 : Nat) : Int) < rfindDotSpace (window text chunk_size start) then
    pySlice (window text chunk_size start) 0 (rfindDotSpace (window text chunk_size start) + 1)
  else window text chunk_size start

/-- The `while start < len(text)` loop of `chunk_text` (lines 69-80), with
explicit fuel; `acc` holds the emitted (stripped) chunks in reverse
order, and the step advances `start` by `len(chunk) - overlap` where
`chunk` is the selected, not yet stripped, chunk (line 80). -/
def chunkLoop (text : List Char) (chunk_size overlap : Nat) :
    Nat → Int → List (List Char) → Option (List (List Char))
  | 0, start, acc =>
    if (text.length : Int) ≤ start then some acc.reverse else none
  | fuel + 1, start, acc =>
    if (text.length : Int) ≤ start then some acc.reverse
    else
      chunkLoop text chunk_size overlap fuel
        (start + ((selectChunk text chunk_size start).length : Int) - (overlap : Int))
        (pyStrip (selectChunk text chunk_size start) :: acc)

/-- `chunk_text(text, chunk_size=500, overlap=100)` (lines 58-82):
normalize whitespace, run the chunking loop from offset 0, and keep only
chunks longer than 50 characters. -/
def chunk_text (text : List Char) (chunk_size overlap : Nat) (fuel : Nat) :
    Option (List (List Char)) :=
  (chunkLoop (normalizeText text) chunk_size overlap fuel 0 []).map
    (List.filter (fun c => 50 < c.length))

/-- Decimal digit string helper: structural recursion on `fuel`, which
only needs to exceed `n` for the recursion on `n / 10` to bottom out. -/
def toDecAux : Nat → Nat → List Char
  | 0, _ => []
  | fuel + 1, n =>
    if n < 10 then [Nat.digitChar n]
    else toDecAux fuel (n / 10) ++ [Nat.digitChar (n % 10)]

/-- Decimal digit string of `n`, most significant digit first — Python
`str(n)` for a nonnegative integer, as used by `f"_{i}"` on line 105. -/
def toDec (n : Nat) : List Char := toDecAux (n + 1) n

/-- Numeric value of a decimal digit character. -/
def decVal (c : Char) : Nat := c.toNat - 48

/-- Read a decimal digit string back into the number it denotes. -/
def ofDec (l : List Char) : Nat := l.foldl (fun a c => 10 * a + decVal c) 0

/-- The chunk id of line 105:
`hashlib.md5(chunk.encode()).hexdigest()[:16] + f"_{i}"`.  The MD5 hex
digest itself is an external library call, modelled as an arbitrary
function `h`; the code takes its first 16 characters and appends an
underscore and the decimal position. -/
def mkChunkId (h : List Char → List Char) (chunk : List Char) (i : Nat) : List Char :=
  (h chunk).take 16 ++ '_' :: toDec i

/-- The vector records built by `process_pdf` (lines 102-113): one
`(id, text, chunk_index)` record per chunk, in document order (the
embedding values are produced externally and carry no identity, so they
are omitted from the record). -/
def buildVectors (h : List Char → List Char) (chunks : List (List Char)) :
    List (List Char × List Char × Nat) :=
  chunks.enum.map (fun p => (mkChunkId h p.2 p.1, p.2, p.1))

/-- Split `vectors` into consecutive batches of `batch_size = 50`
(lines 101 and 115: `range(0, len(vectors), batch_size)`). -/
def mkBatchesAux : Nat → List α → List (List α)
  | 0, _ => []
  | _, [] => []
  | fuel + 1, x :: xs => ((x :: xs).take 50) :: mkBatchesAux fuel ((x :: xs).drop 50)

/-- Split `v` into consecutive batches of `batch_size = 50`; the fuel
`v.length` always suffices since every round consumes at least one
element. -/
def mkBatches (v : List α) : List (List α) := mkBatchesAux v.length v

/-- The upsert loop of `process_pdf` (lines 115-116) against an abstract
external store: `stored` is the sequence of records written so far and
`fails k` says whether the external `index.upsert` call for batch number
`k` raises.  A raising batch aborts the loop with the store as it stands
(`false` = the loop did not run to completion); nothing is rolled back. -/
def runUpserts (fails : Nat → Bool) : Nat → List (List α) → List α → List α × Bool
  | _, [], stored => (stored, true)
  | k, b :: bs, stored =>
    if fails k then (stored, false) else runUpserts fails (k + 1) bs (stored ++ b)

/-- The storage phase of `process_pdf`: batch the vector records and
upsert them batch by batch into an initially untouched store. -/
def processUpserts (fails : Nat → Bool) (v : List α) : List α × Bool :=
  runUpserts fails 0 (mkBatches v) []

/-- One source-label entry (line 139): `f"Chunk {i+1}: {c[:60]}..."`,
where `rank = i + 1`. -/
def srcLabel (rank : Nat) (c : List Char) : List Char :=
  ("Chunk ").data ++ toDec rank ++ (": ").data ++ c.take 60 ++ ("...").data

/-- The combined context of `retrieve_context` (line 136):
`"\n\n---\n\n".join(chunks)`. -/
def buildContext (chunks : List (List Char)) : List Char :=
  List.intercalate ("\n\n---\n\n").data chunks

/-- The source label of `retrieve_context` (line 139):
`" | ".join(f"Chunk {i+1}: {c[:60]}..." for i, c in enumerate(chunks))`. -/
def buildSources (chunks : List (List Char)) : List Char :=
  List.intercalate (" | ").data (chunks.enum.map (fun p => srcLabel (p.1 + 1) p.2))

/-- The pure tail of `retrieve_context` (lines 135-141): from the texts of
the returned matches, in retrieval order, build `(context, sources)`. -/
def retrievePure (chunks : List (List Char)) : List Char × List Char :=
  (buildContext chunks, buildSources chunks)

/-- The spec's own description of the source label: entries
`"Chunk <rank>: <first 60 chars of chunk text>..."` with ranks counted
`1, 2, …` in retrieval order — written as an independent recursion with
an explicit rank counter, to be compared with `buildSources`. -/
def specSourceEntries : Nat → List (List Char) → List (List Char)
  | _, [] => []
  | rank, c :: cs => srcLabel rank c :: specSourceEntries (rank + 1) cs

/-- The spec's source label: the rank-counted entries joined by `" | "`. -/
def specSources (chunks : List (List Char)) : List Char :=
  List.intercalate (" | ").data (specSourceEntries 1 chunks)

-- Concrete checks that the embedding reproduces Python semantics.
example : normalizeText ("a\n\n\n\nb  c").data = ("a\n\nb c").data := by decide
example : rfindDotSpace ("ab. cd. xy").data = 6 := by decide
example : pySlice ("hello").data (-3) 10 = ("llo").data := by decide
example : pySlice ("hello").data (-90) 410 = ("hello").data := by decide
example : selectChunk ("ab. cd. xy").data 10 0 = ("ab. cd.").data := by decide
example : toDec 120 = ("120").data := by decide
example : buildSources [("hello world").data] =
    ("Chunk 1: hello world...").data := by decide

/-- The clamped index never exceeds the string length. -/
theorem pyClamp_le (len : Nat) (i : Int) : pyClamp len i ≤ len := by
  unfold pyClamp
  split <;> omega

/-- Length of a Python slice, in terms of the clamped endpoints. -/
theorem pySlice_length (s : List Char) (i j : Int) :
    (pySlice s i j).length = pyClamp s.length j - pyClamp s.length i := by
  simp only [pySlice, List.length_drop, List.length_take]
  rw [Nat.min_eq_left (pyClamp_le _ _)]

/-- A slice is never longer than the string it is cut from. -/
theorem pySlice_length_le (s : List Char) (i j : Int) :
    (pySlice s i j).length ≤ s.length := by
  rw [pySlice_length]
  have := pyClamp_le s.length j
  omega

/-- A slice of `s` is a contiguous segment of `s`. -/
theorem pySlice_isInfix (s : List Char) (i j : Int) : pySlice s i j <:+: s := by
  have h1 : (s.take (pyClamp s.length j)).drop (pyClamp s.length i) <:+
      s.take (pyClamp s.length j) := List.drop_suffix _ _
  have h2 : s.take (pyClamp s.length j) <+: s := List.take_prefix _ _
  exact h1.isInfix.trans h2.isInfix

/-- While `start < len(text)`, the window never reaches past the text: its
length is bounded by the number of characters that remain. -/
theorem window_length_le_rem (s : List Char) (cs : Nat) (start : Int)
    (h : start < (s.length : Int)) :
    ((window s cs start).length : Int) ≤ (s.length : Int) - start := by
  rw [window, pySlice_length]
  have hB := pyClamp_le s.length (start + cs)
  simp only [pyClamp]
  split <;> split <;> omega

/-- The window holds at most `chunk_size` characters. -/
theorem window_length_le (s : List Char) (cs : Nat) (start : Int) :
    (window s cs start).length ≤ cs := by
  rw [window, pySlice_length]
  simp only [pyClamp]
  split <;> split <;> omega

/-- Sentence-boundary truncation only ever shortens the window. -/
theorem selectChunk_length_le_window (t : List Char) (cs : Nat) (st : Int) :
    (selectChunk t cs st).length ≤ (window t cs st).length := by
  unfold selectChunk
  split
  · exact pySlice_length_le _ _ _
  · exact le_refl _

/-- The selected chunk is a contiguous segment of the window. -/
theorem selectChunk_infix_window (t : List Char) (cs : Nat) (st : Int) :
    selectChunk t cs st <:+: window t cs st := by
  unfold selectChunk
  split
  · exact pySlice_isInfix _ _ _
  · exact List.infix_rfl

/-- The head of `dropWhile p l`, when present, fails `p`. -/
theorem head_dropWhile_not (p : Char → Bool) :
    ∀ (l : List Char) (a : Char), (l.dropWhile p).head? = some a → p a = false := by
  intro l
  induction l with
  | nil => intro a h; simp [List.dropWhile] at h
  | cons x xs ih =>
    intro a h
    by_cases hx : p x
    · rw [List.dropWhile_cons_of_pos hx] at h
      exact ih a h
    · rw [List.dropWhile_cons_of_neg hx] at h
      simp only [List.head?_cons, Option.some.injEq] at h
      rw [← h]
      exact Bool.eq_false_iff.mpr hx

/-- A nonempty prefix starts with the same character. -/
theorem head?_of_isPrefix {l₁ l₂ : List Char} {a : Char} (h : l₁ <+: l₂)
    (ha : l₁.head? = some a) : l₂.head? = some a := by
  obtain ⟨r, rfl⟩ := h
  cases l₁ with
  | nil => simp at ha
  | cons x t => simpa using ha

/-- Stripping returns a contiguous segment of its input. -/
theorem pyStrip_isInfix (s : List Char) : pyStrip s <:+: s := by
  unfold pyStrip
  have h1 : ((s.dropWhile isPySpace).reverse.dropWhile isPySpace).reverse <+:
      (s.dropWhile isPySpace).reverse.reverse :=
    List.reverse_prefix.mpr (List.dropWhile_suffix _)
  rw [List.reverse_reverse] at h1
  have h2 : s.dropWhile isPySpace <:+ s := List.dropWhile_suffix _
  exact h1.isInfix.trans h2.isInfix

/-- A stripped string does not start with whitespace. -/
theorem pyStrip_head (s : List Char) (a : Char) (h : (pyStrip s).head? = some a) :
    isPySpace a = false := by
  have hpre : pyStrip s <+: s.dropWhile isPySpace := by
    unfold pyStrip
    have h1 : ((s.dropWhile isPySpace).reverse.dropWhile isPySpace).reverse <+:
        (s.dropWhile isPySpace).reverse.reverse :=
      List.reverse_prefix.mpr (List.dropWhile_suffix _)
    rwa [List.reverse_reverse] at h1
  exact head_dropWhile_not isPySpace s a (head?_of_isPrefix hpre h)

/-- A stripped string does not end with whitespace. -/
theorem pyStrip_getLast (s : List Char) (a : Char) (h : (pyStrip s).getLast? = some a) :
    isPySpace a = false := by
  rw [← List.head?_reverse] at h
  unfold pyStrip at h
  rw [List.reverse_reverse] at h
  exact head_dropWhile_not isPySpace (s.dropWhile isPySpace).reverse a h

/-- Stripping never lengthens a string. -/
theorem pyStrip_length_le (s : List Char) : (pyStrip s).length ≤ s.length :=
  (pyStrip_isInfix s).length_le

/-- The backward scan only returns positions below its cursor. -/
theorem rfindAux_lt (s : List Char) : ∀ k : Nat, rfindAux s k < (k : Int) := by
  intro k
  induction k with
  | zero => norm_num [rfindAux]
  | succ k ih =>
    simp only [rfindAux]
    split
    · push_cast; omega
    · push_cast at ih ⊢; omega

/-- A nonnegative scan result is an actual occurrence of `'. '`. -/
theorem rfindAux_found (s : List Char) :
    ∀ k : Nat, 0 ≤ rfindAux s k → dotSpaceAt s (rfindAux s k).toNat = true := by
  intro k
  induction k with
  | zero => intro h; norm_num [rfindAux] at h
  | succ k ih =>
    intro h
    by_cases hd : dotSpaceAt s k = true
    · simp only [rfindAux, hd, if_true]
      simpa using hd
    · simp only [rfindAux, hd] at h ⊢
      simp only [Bool.false_eq_true, if_false] at h ⊢
      exact ih h

/-- No occurrence of `'. '` lies strictly between the scan result and the
cursor: the result really is the last occurrence. -/
theorem rfindAux_last (s : List Char) :
    ∀ k j : Nat, rfindAux s k < (j : Int) → j < k → dotSpaceAt s j = false := by
  intro k
  induction k with
  | zero => intro j h hj; omega
  | succ k ih =>
    intro j h hj
    by_cases hd : dotSpaceAt s k = true
    · simp only [rfindAux, hd, if_true] at h
      omega
    · simp only [rfindAux, hd, Bool.false_eq_true, if_false] at h
      rcases Nat.lt_succ_iff_lt_or_eq.mp hj with hlt | rfl
      · exact ih j h hlt
      · exact Bool.eq_false_iff.mpr hd

/-- `rfind` never returns a position at or past the end of the string. -/
theorem rfindDotSpace_lt (s : List Char) : rfindDotSpace s < (s.length : Int) :=
  rfindAux_lt s s.length

/-- A nonnegative `rfind` result marks an occurrence of `'. '`. -/
theorem rfindDotSpace_found (s : List Char) (h : 0 ≤ rfindDotSpace s) :
    dotSpaceAt s (rfindDotSpace s).toNat = true :=
  rfindAux_found s s.length h

/-- Nothing past the `rfind` result matches `'. '`. -/
theorem rfindDotSpace_last (s : List Char) (j : Nat)
    (h : rfindDotSpace s < (j : Int)) (hj : j < s.length) : dotSpaceAt s j = false :=
  rfindAux_last s s.length j h hj

/-- Unfold the `'. '`-at-`k` test into its two character equations. -/
theorem dotSpaceAt_iff (s : List Char) (k : Nat) :
    dotSpaceAt s k = true ↔ s[k]? = some '.' ∧ s[k + 1]? = some ' ' := by
  simp [dotSpaceAt]

/-- Divergence of the chunking loop: as soon as `overlap > 0` and the
offset still lies before the end of the text, the loop can never finish,
with any amount of fuel — each iteration advances the offset by
`len(chunk) - overlap`, and the chunk never reaches past the end of the
text, so the offset stays at most `len(text) - overlap`. -/
theorem chunkLoop_stuck (T : List Char) (cs ov : Nat) (hov : 0 < ov) :
    ∀ (fuel : Nat) (start : Int) (acc : List (List Char)),
      start < (T.length : Int) → chunkLoop T cs ov fuel start acc = none := by
  intro fuel
  induction fuel with
  | zero =>
    intro st acc h
    simp only [chunkLoop]
    rw [if_neg (not_le.mpr h)]
  | succ fuel ih =>
    intro st acc h
    simp only [chunkLoop]
    rw [if_neg (not_le.mpr h)]
    apply ih
    have h1 : ((selectChunk T cs st).length : Int) ≤ ((window T cs st).length : Int) := by
      exact_mod_cast selectChunk_length_le_window T cs st
    have h2 := window_length_le_rem T cs st h
    omega

/-- Divergence of `chunk_text`: with positive overlap and a nonempty
normalized text, no amount of fuel finishes the loop. -/
theorem chunk_text_stuck (text : List Char) (cs ov : Nat) (hov : 0 < ov)
    (hne : normalizeText text ≠ []) (fuel : Nat) : chunk_text text cs ov fuel = none := by
  unfold chunk_text
  rw [chunkLoop_stuck _ _ _ hov fuel 0 [] (by exact_mod_cast List.length_pos.mpr hne)]
  rfl

/-- Fuel-confluence: whenever two fuel budgets both make the loop finish,
they return the same result. -/
theorem chunkLoop_some_unique (T : List Char) (cs ov : Nat) :
    ∀ (f₁ f₂ : Nat) (st : Int) (acc r₁ r₂ : List (List Char)),
      chunkLoop T cs ov f₁ st acc = some r₁ →
      chunkLoop T cs ov f₂ st acc = some r₂ → r₁ = r₂ := by
  intro f₁
  induction f₁ with
  | zero =>
    intro f₂ st acc r₁ r₂ h1 h2
    simp only [chunkLoop] at h1
    by_cases hle : (T.length : Int) ≤ st
    · rw [if_pos hle] at h1
      cases f₂ <;> simp only [chunkLoop] at h2 <;> rw [if_pos hle] at h2 <;>
        (injection h1 with h1; injection h2 with h2; rw [← h1, ← h2])
    · rw [if_neg hle] at h1
      cases h1
  | succ f₁ ih =>
    intro f₂ st acc r₁ r₂ h1 h2
    by_cases hle : (T.length : Int) ≤ st
    · simp only [chunkLoop] at h1
      rw [if_pos hle] at h1
      cases f₂ <;> simp only [chunkLoop] at h2 <;> rw [if_pos hle] at h2 <;>
        (injection h1 with h1; injection h2 with h2; rw [← h1, ← h2])
    · simp only [chunkLoop] at h1
      rw [if_neg hle] at h1
      cases f₂ with
      | zero =>
        simp only [chunkLoop] at h2
        rw [if_neg hle] at h2
        cases h2
      | succ f₂ =>
        simp only [chunkLoop] at h2
        rw [if_neg hle] at h2
        exact ih f₂ _ _ _ _ h1 h2

/-- Loop invariant: a property that holds of every stripped selected
chunk, and of everything in the accumulator, holds of every element of a
finished loop's result. -/
theorem chunkLoop_forall (T : List Char) (cs ov : Nat) (Q : List Char → Prop)
    (hQ : ∀ st : Int, Q (pyStrip (selectChunk T cs st))) :
    ∀ (fuel : Nat) (st : Int) (acc : List (List Char)),
      (∀ c ∈ acc, Q c) → ∀ r, chunkLoop T cs ov fuel st acc = some r → ∀ c ∈ r, Q c := by
  intro fuel
  induction fuel with
  | zero =>
    intro st acc hacc r h c hc
    simp only [chunkLoop] at h
    split at h
    · injection h with h
      subst h
      exact hacc c (List.mem_reverse.mp hc)
    · cases h
  | succ fuel ih =>
    intro st acc hacc r h c hc
    simp only [chunkLoop] at h
    split at h
    · injection h with h
      subst h
      exact hacc c (List.mem_reverse.mp hc)
    · refine ih _ _ ?_ r h c hc
      intro d hd
      rcases List.mem_cons.mp hd with rfl | hd
      · exact hQ st
      · exact hacc d hd

/-- A decimal digit character decodes back to its digit. -/
theorem decVal_digitChar (d : Nat) (h : d < 10) : decVal (Nat.digitChar d) = d := by
  interval_cases d <;> rfl

/-- Reading a digit string with one more digit at the end. -/
theorem ofDec_append (l : List Char) (c : Char) :
    ofDec (l ++ [c]) = 10 * ofDec l + decVal c := by
  simp [ofDec, List.foldl_append]

/-- Round trip: the decimal digit string of `n` denotes `n`. -/
theorem ofDec_toDecAux : ∀ (fuel n : Nat), n < fuel → ofDec (toDecAux fuel n) = n := by
  intro fuel
  induction fuel with
  | zero => intro n h; omega
  | succ fuel ih =>
    intro n h
    by_cases h10 : n < 10
    · simp only [toDecAux, h10, if_true]
      simp [ofDec, decVal_digitChar n h10]
    · simp only [toDecAux, h10, if_false]
      rw [ofDec_append, ih (n / 10) (by omega)]
      have := decVal_digitChar (n % 10) (Nat.mod_lt n (by omega))
      omega

/-- Distinct numbers have distinct decimal digit strings. -/
theorem toDec_injEq (a b : Nat) (h : toDec a = toDec b) : a = b := by
  have ha := ofDec_toDecAux (a + 1) a (by omega)
  have hb := ofDec_toDecAux (b + 1) b (by omega)
  unfold toDec at h
  rw [← ha, ← hb, h]

/-- Two chunk ids can only coincide when their positional indices do
(whatever the hash prefix, as long as the digest has its full 16-plus
characters — MD5 hexdigests have 32). -/
theorem mkChunkId_inj_idx (h : List Char → List Char) (hlen : ∀ s, 16 ≤ (h s).length)
    (c c' : List Char) (i j : Nat) (he : mkChunkId h c i = mkChunkId h c' j) : i = j := by
  unfold mkChunkId at he
  have h1 : ((h c).take 16).length = ((h c').take 16).length := by
    simp only [List.length_take]
    rw [Nat.min_eq_left (hlen c), Nat.min_eq_left (hlen c')]
  obtain ⟨-, h2⟩ := List.append_inj he h1
  injection h2 with _ h3
  exact toDec_injEq i j h3

/-- The ids generated along any tail of the enumeration are pairwise
distinct, because the appended positional index differs. -/
theorem enumFrom_ids_nodup (h : List Char → List Char) (hlen : ∀ s, 16 ≤ (h s).length) :
    ∀ (l : List (List Char)) (k : Nat),
      ((l.enumFrom k).map (fun p => mkChunkId h p.2 p.1)).Nodup := by
  intro l
  induction l with
  | nil => intro k; simp
  | cons x xs ih =>
    intro k
    simp only [List.enumFrom, List.map_cons]
    rw [List.nodup_cons]
    constructor
    · intro hmem
      rw [List.mem_map] at hmem
      obtain ⟨p, hp, he⟩ := hmem
      have hk : k + 1 ≤ p.1 := List.le_fst_of_mem_enumFrom hp
      have := mkChunkId_inj_idx h hlen _ _ _ _ he
      omega
    · exact ih (k + 1)

/-- Batching the empty vector list gives no batches, with any fuel. -/
theorem mkBatchesAux_nil (fuel : Nat) : mkBatchesAux fuel ([] : List α) = [] := by
  cases fuel <;> rfl

/-- Concatenating the batches gives back exactly the vector list. -/
theorem mkBatchesAux_flatten : ∀ (fuel : Nat) (v : List α), v.length ≤ fuel →
    (mkBatchesAux fuel v).flatten = v := by
  intro fuel
  induction fuel with
  | zero =>
    intro v h
    have hv : v = [] := List.length_eq_zero.mp (by omega)
    subst hv
    rfl
  | succ fuel ih =>
    intro v h
    cases v with
    | nil => rfl
    | cons x xs =>
      simp only [mkBatchesAux, List.flatten_cons]
      rw [ih _ (by simp only [List.length_drop, List.length_cons] at *; omega)]
      exact List.take_append_drop 50 (x :: xs)

/-- Every batch is nonempty and holds at most 50 records. -/
theorem mkBatchesAux_sizes : ∀ (fuel : Nat) (v : List α), v.length ≤ fuel →
    ∀ b ∈ mkBatchesAux fuel v, b ≠ [] ∧ b.length ≤ 50 := by
  intro fuel
  induction fuel with
  | zero =>
    intro v h
    have hv : v = [] := List.length_eq_zero.mp (by omega)
    subst hv
    rw [mkBatchesAux_nil]
    simp
  | succ fuel ih =>
    intro v h
    cases v with
    | nil => rw [mkBatchesAux_nil]; simp
    | cons x xs =>
      intro b hb
      simp only [mkBatchesAux, List.mem_cons] at hb
      rcases hb with rfl | hb
      · refine ⟨by simp, ?_⟩
        simp only [List.length_take]
        omega
      · exact ih _ (by simp only [List.length_drop, List.length_cons] at *; omega) b hb

/-- Every batch except possibly the last holds exactly 50 records. -/
theorem mkBatchesAux_dropLast_full : ∀ (fuel : Nat) (v : List α), v.length ≤ fuel →
    ∀ b ∈ (mkBatchesAux fuel v).dropLast, b.length = 50 := by
  intro fuel
  induction fuel with
  | zero =>
    intro v h
    have hv : v = [] := List.length_eq_zero.mp (by omega)
    subst hv
    rw [mkBatchesAux_nil]
    simp
  | succ fuel ih =>
    intro v h
    cases v with
    | nil => rw [mkBatchesAux_nil]; simp
    | cons x xs =>
      cases hrest : mkBatchesAux fuel ((x :: xs).drop 50) with
      | nil =>
        simp only [mkBatchesAux, hrest]
        simp
      | cons r rs =>
        have hw : (x :: xs).drop 50 ≠ [] := by
          intro hnil
          rw [hnil, mkBatchesAux_nil] at hrest
          cases hrest
        have hlen : 50 < (x :: xs).length := by
          have hp := List.length_pos.mpr hw
          simp only [List.length_drop] at hp
          omega
        intro b hb
        simp only [mkBatchesAux, hrest, List.dropLast_cons₂, List.mem_cons] at hb
        rcases hb with rfl | hb
        · simp only [List.length_take]
          omega
        · refine ih _ ?_ b (by rw [hrest]; exact hb)
          simp only [List.length_drop, List.length_cons] at *
          omega

/-- If no batch's upsert call raises, the loop stores everything and
reports completion. -/
theorem runUpserts_ok (fails : Nat → Bool) :
    ∀ (bs : List (List α)) (k : Nat) (st : List α),
      (∀ j, j < bs.length → fails (k + j) = false) →
      runUpserts fails k bs st = (st ++ bs.flatten, true) := by
  intro bs
  induction bs with
  | nil => intro k st h; simp [runUpserts]
  | cons b bs ih =>
    intro k st h
    have h0 : fails k = false := by simpa using h 0 (by simp)
    simp only [runUpserts, h0, Bool.false_eq_true, if_false]
    rw [ih (k + 1) _ ?_]
    · simp
    · intro j hj
      have := h (j + 1) (by simp only [List.length_cons]; omega)
      rwa [show k + 1 + j = k + (j + 1) by omega]

/-- If the first raising batch is batch `m`, the loop keeps the first `m`
batches' records in the store, aborts there, and reports the failure —
nothing already stored is rolled back. -/
theorem runUpserts_fail (fails : Nat → Bool) :
    ∀ (m : Nat) (bs : List (List α)) (k : Nat) (st : List α),
      m < bs.length → (∀ j, j < m → fails (k + j) = false) → fails (k + m) = true →
      runUpserts fails k bs st = (st ++ ((bs.take m).flatten), false) := by
  intro m
  induction m with
  | zero =>
    intro bs k st hm h hf
    cases bs with
    | nil => simp at hm
    | cons b bs =>
      rw [show k + 0 = k from rfl] at hf
      simp [runUpserts, hf]
  | succ m ih =>
    intro bs k st hm h hf
    cases bs with
    | nil => simp at hm
    | cons b bs =>
      have h0 : fails k = false := by simpa using h 0 (by omega)
      simp only [runUpserts, h0, Bool.false_eq_true, if_false]
      rw [ih bs (k + 1) (st ++ b) (by simp only [List.length_cons] at hm; omega) ?_ ?_]
      · simp [List.take_cons, List.flatten_cons]
      · intro j hj
        have := h (j + 1) (by omega)
        rwa [show k + 1 + j = k + (j + 1) by omega]
      · rwa [show k + 1 + m = k + (m + 1) by omega]

/-- The enumerated label entries are exactly the spec's rank-counted
entries, shifted by one. -/
theorem enumFrom_srcLabel (l : List (List Char)) :
    ∀ k, (l.enumFrom k).map (fun p => srcLabel (p.1 + 1) p.2) = specSourceEntries (k + 1) l := by
  induction l with
  | nil => intro k; simp [specSourceEntries]
  | cons c cs ih =>
    intro k
    simp only [List.enumFrom, List.map_cons, specSourceEntries]
    rw [ih (k + 1)]

/-- Infix form of the window: every window is a contiguous segment of the
text. -/
theorem window_isInfix (t : List Char) (cs : Nat) (st : Int) : window t cs st <:+: t :=
  pySlice_isInfix t st (st + cs)

/-- Two finishing runs of `chunk_text` with the same text and parameters
agree, whatever their fuel budgets. -/
theorem chunk_text_some_unique (text : List Char) (cs ov f₁ f₂ : Nat)
    (r₁ r₂ : List (List Char)) (h1 : chunk_text text cs ov f₁ = some r₁)
    (h2 : chunk_text text cs ov f₂ = some r₂) : r₁ = r₂ := by
  unfold chunk_text at h1 h2
  cases hl1 : chunkLoop (normalizeText text) cs ov f₁ 0 [] with
  | none => rw [hl1] at h1; cases h1
  | some l₁ =>
    cases hl2 : chunkLoop (normalizeText text) cs ov f₂ 0 [] with
    | none => rw [hl2] at h2; cases h2
    | some l₂ =>
      rw [hl1] at h1
      rw [hl2] at h2
      injection h1 with h1
      injection h2 with h2
      rw [← h1, ← h2, chunkLoop_some_unique _ cs ov f₁ f₂ 0 [] l₁ l₂ hl1 hl2]

/-- Claim C1: the spec asserts that for every `s > o > 0` and every input
text `chunk_text` terminates.  The code does not: already for
`chunk_size = 2`, `overlap = 1` and the one-character text `"a"` the
start offset never advances (`len(chunk) - overlap = 0`), so the
`while start < len(text)` loop never exits — no iteration budget makes
the modelled loop finish. -/
theorem C1_chunk_text_does_not_terminate :
    ∀ fuel : Nat, chunk_text ("a").data 2 1 fuel = none := by
  intro fuel
  exact chunk_text_stuck ("a").data 2 1 (by omega) (by decide) fuel

/-- Claim C2: the spec demands a fail-fast `InvalidConfig` when
`chunk_size - overlap ≤ 0`.  The code performs no such check: with
`chunk_size = 1 = overlap` and the nonempty text `"ab"` it loops forever
instead (no fuel makes the loop finish), raising nothing. -/
theorem C2_no_fail_fast_on_bad_config :
    ∀ fuel : Nat, chunk_text ("ab").data 1 1 fuel = none := by
  intro fuel
  exact chunk_text_stuck ("ab").data 1 1 (by omega) (by decide) fuel

/-- Claim C3: the spec asserts that a text of length at most `chunk_size`
yields exactly one chunk when its trimmed length exceeds 50.  With the
default parameters and the 60-character text `"bbb…b"` (length ≤ 500,
trimmed length 60 > 50) the loop instead diverges and never yields
anything; only the empty-text half of the claim holds (an empty result,
no error). -/
theorem C3_short_text_diverges_empty_text_ok :
    (∀ fuel : Nat, chunk_text (List.replicate 60 'b') 500 100 fuel = none) ∧
    (∀ fuel : Nat, chunk_text [] 500 100 fuel = some []) := by
  constructor
  · intro fuel
    exact chunk_text_stuck (List.replicate 60 'b') 500 100 (by omega) (by decide) fuel
  · intro fuel
    cases fuel <;> rfl

/-- Claim C4: in every window taken by `chunk_text`, when the last
occurrence of a period-followed-by-space lies strictly past half the
chunk size, the selected chunk is the window cut right after that
occurrence — so it is a prefix of the window ending with the period of
its genuinely last sentence boundary; otherwise the window is kept
whole. -/
theorem C4_sentence_boundary_truncation (text : List Char) (cs : Nat) (start : Int) :
    (rfindDotSpace (window text cs start) ≤ ((cs / 2 : Nat) : Int) →
      selectChunk text cs start = window text cs start) ∧
    (∀ i : Nat, rfindDotSpace (window text cs start) = (i : Int) →
      ((cs / 2 : Nat) : Int) < (i : Int) →
      selectChunk text cs start = (window text cs start).take (i + 1) ∧
      (window text cs start)[i]? = some '.' ∧
      (window text cs start)[i + 1]? = some ' ' ∧
      (∀ j : Nat, i < j →
        ¬((window text cs start)[j]? = some '.' ∧
          (window text cs start)[j + 1]? = some ' ')) ∧
      (selectChunk text cs start).getLast? = some '.') := by
  constructor
  · intro hle
    unfold selectChunk
    rw [if_neg (not_lt.mpr hle)]
  · intro i hi hgt
    have h0 : 0 ≤ rfindDotSpace (window text cs start) := by
      rw [hi]
      exact Int.natCast_nonneg i
    have hfound := rfindDotSpace_found (window text cs start) h0
    rw [hi, Int.toNat_natCast] at hfound
    rw [dotSpaceAt_iff] at hfound
    obtain ⟨hdot, hspace⟩ := hfound
    have hlt : i < (window text cs start).length := by
      have := rfindDotSpace_lt (window text cs start)
      rw [hi] at this
      exact_mod_cast this
    have hsel : selectChunk text cs start = (window text cs start).take (i + 1) := by
      unfold selectChunk
      rw [if_pos (by rw [hi]; exact hgt), hi]
      show ((window text cs start).take
          (pyClamp (window text cs start).length ((i : Int) + 1))).drop
          (pyClamp (window text cs start).length 0) = _
      have e1 : pyClamp (window text cs start).length 0 = 0 := by simp [pyClamp]
      have e2 : pyClamp (window text cs start).length ((i : Int) + 1) = i + 1 := by
        simp only [pyClamp]
        split <;> omega
      rw [e1, e2, List.drop_zero]
    refine ⟨hsel, hdot, hspace, ?_, ?_⟩
    · intro j hj hcontra
      by_cases hjl : j < (window text cs start).length
      · have hlast := rfindDotSpace_last (window text cs start) j
          (by rw [hi]; exact_mod_cast hj) hjl
        have : dotSpaceAt (window text cs start) j = true :=
          (dotSpaceAt_iff _ j).mpr hcontra
        rw [hlast] at this
        cases this
      · have hnone : (window text cs start)[j]? = none := by
          rw [List.getElem?_eq_none_iff]
          omega
        rw [hnone] at hcontra
        cases hcontra.1
    · rw [hsel, List.take_succ, hdot]
      simp [List.getLast?_concat]

/-- Concrete instance of the claim-C4 theorem: on the 10-character window
`"ab. cd. xy"` with `chunk_size = 10`, the last `'. '` sits at index
6 > 5, and the selected chunk is the 7-character prefix ending in the
period. -/
theorem C4_witness :
    selectChunk ("ab. cd. xy").data 10 0 = (window ("ab. cd. xy").data 10 0).take 7 ∧
    (selectChunk ("ab. cd. xy").data 10 0).getLast? = some '.' := by
  have h := (C4_sentence_boundary_truncation (("ab. cd. xy").data) 10 0).2 6
    (by decide) (by decide)
  exact ⟨h.1, h.2.2.2.2⟩

/-- Claim C5: every chunk in a finished `chunk_text` result is longer
than 50 characters and carries no leading or trailing whitespace (it is
its own trim), and no string of length at most 50 ever appears in the
output. -/
theorem C5_chunks_trimmed_and_filtered (text : List Char) (cs ov fuel : Nat)
    (res : List (List Char)) (h : chunk_text text cs ov fuel = some res) :
    (∀ c ∈ res, 50 < c.length ∧
      (∀ a, c.head? = some a → isPySpace a = false) ∧
      (∀ a, c.getLast? = some a → isPySpace a = false)) ∧
    (∀ c : List Char, c.length ≤ 50 → c ∉ res) := by
  unfold chunk_text at h
  cases hl : chunkLoop (normalizeText text) cs ov fuel 0 [] with
  | none => rw [hl] at h; cases h
  | some l =>
    rw [hl] at h
    injection h with h
    subst h
    constructor
    · intro c hc
      have hmem := List.mem_filter.mp hc
      have hlen : 50 < c.length := by simpa using hmem.2
      have hQ := chunkLoop_forall (normalizeText text) cs ov
        (fun c => (∀ a, c.head? = some a → isPySpace a = false) ∧
          (∀ a, c.getLast? = some a → isPySpace a = false))
        (fun st => ⟨fun a ha => pyStrip_head _ a ha, fun a ha => pyStrip_getLast _ a ha⟩)
        fuel 0 [] (by simp) l hl c hmem.1
      exact ⟨hlen, hQ.1, hQ.2⟩
    · intro c hle hc
      have hmem := List.mem_filter.mp hc
      have : 50 < c.length := by simpa using hmem.2
      omega

/-- Concrete instance of the claim-C5 theorem: the single chunk returned
for sixty `'b'`s (with `overlap = 0`, where the loop does finish) is
longer than 50 characters and starts with the non-whitespace `'b'`. -/
theorem C5_witness :
    50 < (List.replicate 60 'b').length ∧ isPySpace 'b' = false := by
  have h := (C5_chunks_trimmed_and_filtered (List.replicate 60 'b') 500 0 2
    [List.replicate 60 'b'] (by decide)).1 (List.replicate 60 'b') (by simp)
  exact ⟨h.1, h.2.1 'b' (by decide)⟩

/-- Claim C6: within one document the generated ids are pairwise distinct
— the decimal positional suffix behind the fixed-width 16-character hash
prefix forces ids at distinct positions apart, so distinct
`(text, position)` records always get distinct ids — and re-running the
chunker on the same text with the same parameters reproduces the
identical id records. -/
theorem C6_ids_distinct_and_reproducible (h : List Char → List Char)
    (hlen : ∀ s, 16 ≤ (h s).length) :
    (∀ chunks : List (List Char), ((buildVectors h chunks).map (fun v => v.1)).Nodup) ∧
    (∀ (text : List Char) (cs ov f₁ f₂ : Nat) (r₁ r₂ : List (List Char)),
      chunk_text text cs ov f₁ = some r₁ → chunk_text text cs ov f₂ = some r₂ →
      buildVectors h r₁ = buildVectors h r₂) := by
  constructor
  · intro chunks
    have hnd := enumFrom_ids_nodup h hlen chunks 0
    simpa [buildVectors, List.map_map, List.enum, Function.comp] using hnd
  · intro text cs ov f₁ f₂ r₁ r₂ h1 h2
    rw [chunk_text_some_unique text cs ov f₁ f₂ r₁ r₂ h1 h2]

/-- Concrete instance of the claim-C6 theorem: with a constant 16-character
digest (the worst case — the hash distinguishes nothing) and the same
chunk text at two positions, the generated ids are still distinct. -/
theorem C6_witness :
    ((buildVectors (fun _ => List.replicate 16 'f')
      [("alpha").data, ("alpha").data]).map (fun v => v.1)).Nodup := by
  exact (C6_ids_distinct_and_reproducible (fun _ => List.replicate 16 'f')
    (fun s => by simp)).1 [("alpha").data, ("alpha").data]

/-- Claim C7: `chunk_text` is deterministic — two finishing runs on the
same text with the same `chunk_size` and `overlap` return the same chunk
sequence (whatever iteration budgets let them finish). -/
theorem C7_chunk_text_deterministic (text : List Char) (cs ov f₁ f₂ : Nat)
    (r₁ r₂ : List (List Char)) (h1 : chunk_text text cs ov f₁ = some r₁)
    (h2 : chunk_text text cs ov f₂ = some r₂) : r₁ = r₂ :=
  chunk_text_some_unique text cs ov f₁ f₂ r₁ r₂ h1 h2

/-- Concrete instance of the claim-C7 theorem: two runs with different
fuel budgets on sixty `'b'`s (with `overlap = 0`) both finish and agree. -/
theorem C7_witness :
    chunk_text (List.replicate 60 'b') 500 0 3 = some [List.replicate 60 'b'] ∧
    ([List.replicate 60 'b'] : List (List Char)) = [List.replicate 60 'b'] :=
  ⟨by decide,
    C7_chunk_text_deterministic (List.replicate 60 'b') 500 0 3 5
      [List.replicate 60 'b'] [List.replicate 60 'b'] (by decide) (by decide)⟩

/-- Claim C8: the source label is the pipe-separated list of
`"Chunk <rank>: <first 60 chars>..."` entries, ranks counted from 1 in
retrieval order (the code's enumerate-based label coincides with the
spec's rank-counted description), and with zero retrieved matches both
the combined context and the source label are the empty string — the
function is total, so no error arises. -/
theorem C8_source_label_format :
    retrievePure [] = ([], []) ∧
    (∀ chunks : List (List Char), buildSources chunks = specSources chunks) := by
  constructor
  · rfl
  · intro chunks
    show List.intercalate (" | ").data
        ((List.enumFrom 0 chunks).map (fun p => srcLabel (p.1 + 1) p.2)) =
      List.intercalate (" | ").data (specSourceEntries 1 chunks)
    rw [enumFrom_srcLabel chunks 0]

/-- Claim C9: `process_pdf` upserts in order, in batches of exactly 50
(the final batch possibly smaller but never empty); when the first
raising upsert call is batch `m`, the store keeps precisely the records
of the first `m` batches — prior batches are not rolled back — and the
failure is reported rather than swallowed; when no call raises, all
records are stored. -/
theorem C9_batched_upserts (α : Type) (v : List α) (fails : Nat → Bool) :
    (mkBatches v).flatten = v ∧
    (∀ b ∈ mkBatches v, b ≠ [] ∧ b.length ≤ 50) ∧
    (∀ b ∈ (mkBatches v).dropLast, b.length = 50) ∧
    (∀ m : Nat, m < (mkBatches v).length → (∀ j, j < m → fails j = false) →
      fails m = true →
      processUpserts fails v = (((mkBatches v).take m).flatten, false)) ∧
    ((∀ j, j < (mkBatches v).length → fails j = false) →
      processUpserts fails v = (v, true)) := by
  refine ⟨mkBatchesAux_flatten v.length v (le_refl _),
    mkBatchesAux_sizes v.length v (le_refl _),
    mkBatchesAux_dropLast_full v.length v (le_refl _), ?_, ?_⟩
  · intro m hm hbefore hm'
    unfold processUpserts
    rw [runUpserts_fail fails m (mkBatches v) 0 [] hm
      (fun j hj => by simpa using hbefore j hj) (by simpa using hm')]
    simp
  · intro hok
    unfold processUpserts
    rw [runUpserts_ok fails (mkBatches v) 0 [] (fun j hj => by simpa using hok j hj)]
    rw [List.nil_append,
      show (mkBatches v).flatten = v from mkBatchesAux_flatten v.length v (le_refl _)]

/-- Concrete instance of the claim-C9 theorem: 101 records make batches
of 50, 50 and 1; when batch 1 raises, exactly the first 50 records stay
stored and the failure is reported. -/
theorem C9_witness :
    processUpserts (fun k => k == 1) (List.range 101) = ((List.range 101).take 50, false) := by
  have h := (C9_batched_upserts Nat (List.range 101) (fun k => k == 1)).2.2.2.1 1
    (by decide) (by decide) (by decide)
  rw [h]
  decide

/-- Claim C10: every string in a finished `chunk_text` result is a
contiguous substring of the whitespace-normalized input text and holds
at most `chunk_size` characters. -/
theorem C10_chunks_bounded_substrings (text : List Char) (cs ov fuel : Nat)
    (res : List (List Char)) (h : chunk_text text cs ov fuel = some res) :
    ∀ c ∈ res, c.length ≤ cs ∧ c <:+: normalizeText text := by
  unfold chunk_text at h
  cases hl : chunkLoop (normalizeText text) cs ov fuel 0 [] with
  | none => rw [hl] at h; cases h
  | some l =>
    rw [hl] at h
    injection h with h
    subst h
    intro c hc
    have hmem := List.mem_filter.mp hc
    refine chunkLoop_forall (normalizeText text) cs ov
      (fun c => c.length ≤ cs ∧ c <:+: normalizeText text) ?_ fuel 0 [] (by simp)
      l hl c hmem.1
    intro st
    constructor
    · have h1 := pyStrip_length_le (selectChunk (normalizeText text) cs st)
      have h2 := selectChunk_length_le_window (normalizeText text) cs st
      have h3 := window_length_le (normalizeText text) cs st
      omega
    · exact ((pyStrip_isInfix _).trans (selectChunk_infix_window _ _ _)).trans
        (window_isInfix (normalizeText text) cs st)

/-- Concrete instance of the claim-C10 theorem: the single chunk returned
for sixty `'b'`s (with `overlap = 0`) fits in the chunk size and is a
contiguous substring of the normalized input. -/
theorem C10_witness :
    (List.replicate 60 'b').length ≤ 500 ∧
    List.replicate 60 'b' <:+: normalizeText (List.replicate 60 'b') :=
  C10_chunks_bounded_substrings (List.replicate 60 'b') 500 0 2
    [List.replicate 60 'b'] (by decide) (List.replicate 60 'b') (by simp)
